import Mathlib

/-!
Shallow embedding of the coverage-preserving input generalization stage
(`GeneralizationStage` in `libafl/src/stages/generalization.rs`), together
with theorems checking the stage's specified properties against the code.

The payload is a list of slots, each either a kept byte (`some b`) or a
gap (`none`), exactly as the Rust `Vec<Option<u8>>`.  The coverage witness
probe (executor plus map observer, external collaborators of the stage) is
abstracted by a `how_many_set` oracle; the deletion loops take the
resulting boolean probe as a parameter.  Loops whose termination is not
structural are step-indexed by an explicit fuel argument: a `none` result
means the loop did not finish within the given number of iterations, and a
result that is `none` for every fuel models a non-terminating run.
-/

namespace Generalization

/-- A byte value as stored in the payload (Rust `u8`; the claims do not
depend on the 0..255 bound, so plain naturals are used). -/
abbrev Byte := Nat

/-- The working payload: each slot is either a kept byte `some b` or a gap
`none` (Rust `Vec<Option<u8>>`). -/
abbrev Payload := List (Option Byte)

/-- Materialization: the concrete byte string obtained by concatenating all
kept bytes in order, skipping gaps (the `filter`/`map` pair used when the
Rust code builds a candidate input). -/
def materialize (p : Payload) : List Byte := p.filterMap id

/-- Size ceiling for persisting a generalized payload (`MAX_GENERALIZED_LEN`). -/
def MAX_GENERALIZED_LEN : Nat := 8192

/-- Stride nominator (`increment_by_offset`): nominate `idx + 1 + off`. -/
def increment_by_offset (_list : Payload) (idx : Nat) (off : Byte) : Nat :=
  idx + 1 + off

/-- Scanning loop of `find_next_char`, walking the slots from absolute
index `idx`; the list argument holds the remaining slots `list[idx..]`. -/
def find_next_char_go (ch : Byte) : Payload → Nat → Nat
  | [], idx => idx
  | x :: xs, idx => if x = some ch then idx + 1 else find_next_char_go ch xs (idx + 1)

/-- Delimiter nominator (`find_next_char`): starting at `idx`, return
`i + 1` for the first `i` with `list[i] = some ch`, and the final scan
index (the length, when `idx` is in bounds) if no such slot exists. -/
def find_next_char (list : Payload) (idx : Nat) (ch : Byte) : Nat :=
  find_next_char_go ch (list.drop idx) idx

/-- The `retain` loop of `trim_payload`: `prev` records whether the
previously scanned slot was a gap; a slot is dropped iff it is a gap and
the previous slot was also a gap.  `prev` is updated for every slot
(the Rust code uses the non-short-circuiting `&` with `mem::replace`). -/
def trim_go (prev : Bool) : Payload → Payload
  | [] => []
  | x :: xs =>
    if x.isNone && prev then trim_go x.isNone xs
    else x :: trim_go x.isNone xs

/-- Trim pass (`trim_payload`): collapse every contiguous run of gaps to a
single gap marker. -/
def trim_payload (p : Payload) : Payload := trim_go false p

/-- Overwrite the slots with indices in `[s, e)` with gaps (the Rust
`for item in &mut payload[start..end] { *item = None; }`, with the range
already clamped to the payload length by the caller). -/
def gapRange : Payload → Nat → Nat → Payload
  | [], _, _ => []
  | x :: xs, s, e =>
    (if s = 0 ∧ 0 < e then none else x) :: gapRange xs (s - 1) (e - 1)

/-- The loop of `find_gaps`, step-indexed by `fuel`: while `start` is in
bounds, nominate `end` via `find_next_index` (clamped to the length),
probe the materialization with slots `[start, end)` excluded, gap the
range on success, and advance `start` to `end` regardless. -/
def find_gaps_go (verify : List Byte → Bool) (find_next_index : Payload → Nat → Byte → Nat)
    (split_char : Byte) : Nat → Payload → Nat → Option Payload
  | 0, p, start => if start < p.length then none else some p
  | fuel + 1, p, start =>
    if start < p.length then
      let e0 := find_next_index p start split_char
      let e := if p.length < e0 then p.length else e0
      let cand := materialize (p.take start) ++ materialize (p.drop e)
      find_gaps_go verify find_next_index split_char fuel
        (if verify cand then gapRange p start e else p) e
    else some p

/-- `find_gaps`: run the nomination loop from `start = 0` and trim
afterwards.  The internal fuel `p.length` is sufficient for the two
nominators the stage uses, since they strictly increase `start`. -/
def find_gaps (verify : List Byte → Bool) (find_next_index : Payload → Nat → Byte → Nat)
    (split_char : Byte) (p : Payload) : Option Payload :=
  (find_gaps_go verify find_next_index split_char p.length p 0).map trim_payload

/-- Scanning loop that advances `index` to the next slot equal to
`some ch` (the find-start inner loop of `find_gaps_in_closures`); the list
argument holds the remaining slots `p[idx..]`. -/
def find_start_index_go (ch : Byte) : Payload → Nat → Nat
  | [], idx => idx
  | x :: xs, idx => if x = some ch then idx else find_start_index_go ch xs (idx + 1)

/-- Absolute-index wrapper for the find-start loop: the first `i ≥ idx`
with `p[i] = some ch`, or the final scan index when none exists. -/
def find_start_index (p : Payload) (idx : Nat) (ch : Byte) : Nat :=
  find_start_index_go ch (p.drop idx) idx

/-- The end-decrementing inner loop of `find_gaps_in_closures`: while
`end > start`, if the slot at `end` is the closing byte, probe the
materialization excluding `[start, end)` (keeping the slot at `end`), gap
`[start, end)` on success, and set `start = end` whether or not the probe
succeeded (which makes the loop exit on the next test); then decrement
`end`. -/
def closure_inner (verify : List Byte → Bool) (closing_char : Byte) :
    Nat → Nat → Payload → Payload
  | 0, _, p => p
  | e + 1, start, p =>
    if start < e + 1 then
      if p[e + 1]? = some (some closing_char) then
        let cand := materialize (p.take start) ++ materialize (p.drop (e + 1))
        closure_inner verify closing_char e (e + 1)
          (if verify cand then gapRange p start (e + 1) else p)
      else
        closure_inner verify closing_char e start p
    else p

/-- The outer loop of `find_gaps_in_closures`, step-indexed by `fuel`:
while `index` is in bounds, advance `index` to the next opening byte, run
the end-decrementing inner loop from `p.length - 1`, and re-test the outer
condition with the (unchanged) `index`.  A `none` result means the loop
did not exit within `fuel` iterations. -/
def closures_go (verify : List Byte → Bool) (opening_char closing_char : Byte) :
    Nat → Payload → Nat → Option Payload
  | 0, p, index => if index < p.length then none else some p
  | fuel + 1, p, index =>
    if index < p.length then
      let start := find_start_index p index opening_char
      let p' := closure_inner verify closing_char (p.length - 1) start p
      closures_go verify opening_char closing_char fuel p' start
    else some p

/-- `find_gaps_in_closures`: run the bracket-pair loop from `index = 0`
and trim afterwards. -/
def find_gaps_in_closures (verify : List Byte → Bool) (fuel : Nat)
    (opening_char closing_char : Byte) (p : Payload) : Option Payload :=
  (closures_go verify opening_char closing_char fuel p 0).map trim_payload

/-- Coverage witness probe (`verify_input`): the executor run and the map
observer are external collaborators, abstracted by the `how_many_set`
oracle that reports how many of the novelty indices are set after running
the target on the candidate; the probe succeeds iff the count equals the
number of novelties. -/
def verify_input (how_many_set : List Byte → List Nat → Nat)
    (novelties : List Nat) (candidate : List Byte) : Bool :=
  how_many_set candidate novelties == novelties.length

/-- Modelled from the spec: the view of a corpus entry used by the stage —
the input's raw bytes, its optional stored generalized slot sequence, and
the optional novelty metadata attached to the testcase (the corpus and
`GeneralizedInput` collaborators are outside the embedded sources). -/
structure Entry where
  bytes : List Byte
  generalized : Option Payload
  metadata : Option (List Nat)
deriving DecidableEq

/-- The stage's error type as used by `perform` (`Error::KeyNotFound`). -/
inductive Err where
  | keyNotFound : String → Err
deriving DecidableEq

/-- The exact "metadata not found" message built by `perform`, naming the
corpus index. -/
def metadata_not_found_msg (corpus_idx : Nat) : String :=
  "MapNoveltiesMetadata needed for GeneralizationStage not found in testcase #"
    ++ toString corpus_idx
    ++ " (check the arguments of MapFeedback::new(...))"

/-- Modelled from the spec: `GeneralizedInput::generalized_from_options`
stores the slot sequence as the entry input's generalized form (the
`GeneralizedInput` collaborator is outside the embedded sources). -/
def generalized_from_options (entry : Entry) (p : Payload) : Entry :=
  { entry with generalized := some p }

/-- A phase descriptor of the fixed schedule driven by `perform`. -/
inductive PhaseDesc where
  | stride : Byte → PhaseDesc
  | split : Byte → PhaseDesc
  | brackets : Byte → Byte → PhaseDesc
deriving DecidableEq

/-- The fixed phase schedule of `perform`: strides 255, 127, 63, 31, 0;
splits on `.` `;` `,` `\n` `\r` `#` and space; bracket pairs `()`, `[]`,
braces, `<>`, single quotes, double quotes. -/
def schedule : List PhaseDesc :=
  [PhaseDesc.stride 255, PhaseDesc.stride 127, PhaseDesc.stride 63,
   PhaseDesc.stride 31, PhaseDesc.stride 0,
   PhaseDesc.split 46, PhaseDesc.split 59, PhaseDesc.split 44,
   PhaseDesc.split 10, PhaseDesc.split 13, PhaseDesc.split 35,
   PhaseDesc.split 32,
   PhaseDesc.brackets 40 41, PhaseDesc.brackets 91 93,
   PhaseDesc.brackets 123 125, PhaseDesc.brackets 60 62,
   PhaseDesc.brackets 39 39, PhaseDesc.brackets 34 34]

/-- Run a single phase of the schedule on the payload. -/
def run_phase (verify : List Byte → Bool) (fuel : Nat) (p : Payload) :
    PhaseDesc → Option Payload
  | PhaseDesc.stride off => find_gaps verify increment_by_offset off p
  | PhaseDesc.split ch => find_gaps verify find_next_char ch p
  | PhaseDesc.brackets o c => find_gaps_in_closures verify fuel o c p

/-- The full phase pipeline of `perform`, in schedule order. -/
def phases (verify : List Byte → Bool) (fuel : Nat) (p : Payload) : Option Payload :=
  schedule.foldlM (run_phase verify fuel) p

/-- The stage entry point (`perform`), with the executor/observer pair
abstracted by `how_many_set` and the bracket-pair loops step-indexed by
`fuel`: return success at once if the input is already generalized; fail
with a key-not-found error naming the corpus index if the novelty metadata
is absent; return success without generalizing if the baseline probe on
the original bytes fails; otherwise drive the phase schedule and persist
the generalized form exactly when its length fits `MAX_GENERALIZED_LEN`. -/
def perform (how_many_set : List Byte → List Nat → Nat) (fuel : Nat)
    (entry : Entry) (corpus_idx : Nat) : Option (Except Err Unit × Entry) :=
  if entry.generalized.isSome then some (Except.ok (), entry)
  else
    match entry.metadata with
    | none =>
      some (Except.error (Err.keyNotFound (metadata_not_found_msg corpus_idx)), entry)
    | some novelties =>
      if verify_input how_many_set novelties entry.bytes then
        match phases (verify_input how_many_set novelties) fuel (entry.bytes.map some) with
        | none => none
        | some p =>
          if p.length ≤ MAX_GENERALIZED_LEN then
            some (Except.ok (), generalized_from_options entry p)
          else
            some (Except.ok (), entry)
      else some (Except.ok (), entry)

/-- Spec-side normal form for the trim pass: keep every byte slot, and
replace each contiguous run of gaps by exactly one gap marker. -/
def collapse_gaps : Payload → Payload
  | [] => []
  | some b :: xs => some b :: collapse_gaps xs
  | none :: xs => none :: collapse_gaps (xs.dropWhile Option.isNone)
termination_by p => p.length
decreasing_by
  all_goals simp_wf
  all_goals
    first
    | omega
    | (have h := (List.dropWhile_sublist (l := xs) Option.isNone).length_le; omega)

/-- Decidable adjacency check: no two neighbouring slots are both gaps. -/
def no_adjacent_gaps : Payload → Bool
  | [] => true
  | [_] => true
  | a :: b :: rest => !(a.isNone && b.isNone) && no_adjacent_gaps (b :: rest)

theorem materialize_nil : materialize [] = [] := rfl

theorem materialize_cons_none (p : Payload) : materialize (none :: p) = materialize p := rfl

theorem materialize_cons_some (b : Byte) (p : Payload) :
    materialize (some b :: p) = b :: materialize p := rfl

theorem materialize_append (a b : Payload) :
    materialize (a ++ b) = materialize a ++ materialize b := by
  simp [materialize, List.filterMap_append]

theorem materialize_map_some (l : List Byte) : materialize (l.map some) = l := by
  induction l with
  | nil => rfl
  | cons b xs ih => simp [List.map_cons, materialize_cons_some, ih]

theorem gapRange_length (p : Payload) : ∀ s e, (gapRange p s e).length = p.length := by
  induction p with
  | nil => intro s e; rfl
  | cons x xs ih => intro s e; simp [gapRange, ih]

theorem materialize_gapRange_length_le (p : Payload) :
    ∀ s e, (materialize (gapRange p s e)).length ≤ (materialize p).length := by
  induction p with
  | nil => intro s e; simp [gapRange]
  | cons x xs ih =>
    intro s e
    have hxs := ih (s - 1) (e - 1)
    by_cases h : s = 0 ∧ 0 < e
    · cases x with
      | none => simpa [gapRange, h, materialize_cons_none] using hxs
      | some b =>
        simp only [gapRange, if_pos h, materialize_cons_none, materialize_cons_some]
        calc (materialize (gapRange xs (s - 1) (e - 1))).length
            ≤ (materialize xs).length := hxs
          _ ≤ (b :: materialize xs).length := by simp
    · cases x with
      | none => simpa [gapRange, h, materialize_cons_none] using hxs
      | some b => simpa [gapRange, h, materialize_cons_some] using hxs

theorem gapRange_getElem? (p : Payload) :
    ∀ s e i, (gapRange p s e)[i]? =
      if s ≤ i ∧ i < e ∧ i < p.length then some none else p[i]? := by
  induction p with
  | nil => intro s e i; simp [gapRange]
  | cons x xs ih =>
    intro s e i
    have h0 : (x :: xs).length = xs.length + 1 := rfl
    cases i with
    | zero =>
      by_cases h : s = 0 ∧ 0 < e
      · rw [if_pos (show s ≤ 0 ∧ 0 < e ∧ 0 < (x :: xs).length by omega)]
        simp [gapRange, h]
      · rw [if_neg (show ¬(s ≤ 0 ∧ 0 < e ∧ 0 < (x :: xs).length) by omega)]
        simp [gapRange, h]
    | succ j =>
      simp only [gapRange, List.getElem?_cons_succ]
      rw [ih (s - 1) (e - 1) j]
      by_cases hcond : s ≤ j + 1 ∧ j + 1 < e ∧ j + 1 < (x :: xs).length
      · rw [if_pos (show s - 1 ≤ j ∧ j < e - 1 ∧ j < xs.length by omega), if_pos hcond]
      · rw [if_neg (show ¬(s - 1 ≤ j ∧ j < e - 1 ∧ j < xs.length) by omega), if_neg hcond]

theorem materialize_trim_go (p : Payload) :
    ∀ prev, materialize (trim_go prev p) = materialize p := by
  induction p with
  | nil => intro prev; rfl
  | cons x xs ih =>
    intro prev
    cases x with
    | none => cases prev <;> simp [trim_go, materialize_cons_none, ih]
    | some b => simp [trim_go, materialize_cons_some, ih]

theorem materialize_trim_payload (p : Payload) :
    materialize (trim_payload p) = materialize p :=
  materialize_trim_go p false

theorem trim_go_eq_collapse (p : Payload) :
    trim_go false p = collapse_gaps p ∧
    trim_go true p = collapse_gaps (p.dropWhile Option.isNone) := by
  induction p with
  | nil => constructor <;> simp [trim_go, collapse_gaps, List.dropWhile]
  | cons x xs ih =>
    cases x with
    | some b =>
      refine ⟨?_, ?_⟩
      · simp [trim_go, collapse_gaps, ih.1]
      · simp [trim_go, List.dropWhile, collapse_gaps, ih.1]
    | none =>
      refine ⟨?_, ?_⟩
      · simp [trim_go, collapse_gaps, ih.2]
      · simp [trim_go, List.dropWhile, ih.2]

theorem trim_go_true_head (p : Payload) :
    trim_go true p = [] ∨ ∃ b r, trim_go true p = some b :: r := by
  induction p with
  | nil => exact Or.inl rfl
  | cons x xs ih =>
    cases x with
    | none => simpa [trim_go] using ih
    | some b => exact Or.inr ⟨b, trim_go false xs, by simp [trim_go]⟩

theorem no_adjacent_gaps_cons_some (b : Byte) (l : Payload) :
    no_adjacent_gaps (some b :: l) = no_adjacent_gaps l := by
  cases l <;> simp [no_adjacent_gaps]

theorem no_adjacent_gaps_cons_none_of (l : Payload)
    (hl : l = [] ∨ ∃ b r, l = some b :: r) (h : no_adjacent_gaps l = true) :
    no_adjacent_gaps (none :: l) = true := by
  rcases hl with h1 | ⟨b, r, rfl⟩
  · subst h1; rfl
  · simpa [no_adjacent_gaps] using h

theorem no_adjacent_gaps_trim_go (p : Payload) :
    ∀ prev, no_adjacent_gaps (trim_go prev p) = true := by
  induction p with
  | nil => intro prev; rfl
  | cons x xs ih =>
    intro prev
    cases x with
    | some b => simp [trim_go, no_adjacent_gaps_cons_some, ih false]
    | none =>
      cases prev with
      | true => simpa [trim_go] using ih true
      | false =>
        simp only [trim_go, Option.isNone_none, Bool.true_and, if_neg Bool.false_ne_true]
        exact no_adjacent_gaps_cons_none_of _ (trim_go_true_head xs) (ih true)

/-- Claim C3: after `trim_payload` no two adjacent slots are both gaps —
each contiguous run of gaps collapses to exactly one gap marker, as the
spec-side `collapse_gaps` normal form states — and the materialization of
the trimmed payload equals the materialization of the payload before
trimming. -/
theorem trim_payload_compact_and_preserves_materialization (p : Payload) :
    trim_payload p = collapse_gaps p ∧
    no_adjacent_gaps (trim_payload p) = true ∧
    materialize (trim_payload p) = materialize p :=
  ⟨(trim_go_eq_collapse p).1, no_adjacent_gaps_trim_go p false, materialize_trim_go p false⟩

theorem find_next_char_go_ge (ch : Byte) (l : Payload) :
    ∀ idx, idx ≤ find_next_char_go ch l idx := by
  induction l with
  | nil => intro idx; exact Nat.le_refl idx
  | cons x xs ih =>
    intro idx
    by_cases hx : x = some ch
    · simp only [find_next_char_go, if_pos hx]; omega
    · simp only [find_next_char_go, if_neg hx]
      have := ih (idx + 1)
      omega

theorem find_next_char_lt (l : Payload) (idx : Nat) (ch : Byte) (h : idx < l.length) :
    idx < find_next_char l idx ch := by
  unfold find_next_char
  rw [List.drop_eq_getElem_cons h]
  by_cases hx : l[idx] = some ch
  · simp only [find_next_char_go, if_pos hx]; omega
  · simp only [find_next_char_go, if_neg hx]
    have := find_next_char_go_ge ch (l.drop (idx + 1)) (idx + 1)
    omega

theorem find_next_char_go_not_found (ch : Byte) :
    ∀ (l : Payload), (∀ x ∈ l, x ≠ some ch) →
      ∀ idx, find_next_char_go ch l idx = idx + l.length := by
  intro l
  induction l with
  | nil => intro _ idx; simp [find_next_char_go]
  | cons x xs ih =>
    intro h idx
    have hx : x ≠ some ch := h x (by simp)
    simp only [find_next_char_go, if_neg hx]
    rw [ih (fun y hy => h y (by simp [hy])) (idx + 1)]
    simp only [List.length_cons]
    omega

theorem find_next_char_go_found (ch : Byte) :
    ∀ (l : Payload) (k : Nat), l[k]? = some (some ch) →
      (∀ j, j < k → l[j]? ≠ some (some ch)) →
      ∀ idx, find_next_char_go ch l idx = idx + k + 1 := by
  intro l
  induction l with
  | nil => intro k hk; simp at hk
  | cons x xs ih =>
    intro k hk hmin idx
    cases k with
    | zero =>
      simp only [List.getElem?_cons_zero, Option.some_inj] at hk
      simp [find_next_char_go, hk]
    | succ k' =>
      have hx : x ≠ some ch := by
        intro hcontra
        exact hmin 0 (Nat.succ_pos k') (by simp [hcontra])
      simp only [find_next_char_go, if_neg hx]
      have hxs := ih k' (by simpa using hk)
        (fun j hj => by
          have := hmin (j + 1) (Nat.succ_lt_succ hj)
          simpa using this)
        (idx + 1)
      omega

/-- Claim C7: for every payload and start position, delimiter-split
nomination with byte `ch` sets the end to `i + 1` for the smallest
`i ≥ start` whose slot is `Byte ch`, and to `|P|` when no such slot
exists before `|P|` — so the nominated deletion window `[start, i + 1)`
includes the delimiter slot itself. -/
theorem split_nomination_characterization (l : Payload) (idx : Nat) (ch : Byte) :
    ((∀ i, idx ≤ i → i < l.length → l[i]? ≠ some (some ch)) → idx ≤ l.length →
       find_next_char l idx ch = l.length) ∧
    (∀ i, idx ≤ i → l[i]? = some (some ch) →
       (∀ j, idx ≤ j → j < i → l[j]? ≠ some (some ch)) →
       find_next_char l idx ch = i + 1) := by
  constructor
  · intro hnone hle
    unfold find_next_char
    rw [find_next_char_go_not_found ch (l.drop idx) ?_ idx]
    · simp only [List.length_drop]; omega
    · intro x hx hxe
      obtain ⟨j, hjlt, hjx⟩ := List.mem_iff_getElem.mp hx
      have h1 : (l.drop idx)[j]? = some x := by
        rw [List.getElem?_eq_getElem hjlt, hjx]
      rw [List.getElem?_drop] at h1
      have hlen : j < l.length - idx := by simpa [List.length_drop] using hjlt
      exact hnone (idx + j) (Nat.le_add_right idx j) (by omega) (by rw [h1, hxe])
  · intro i hidx hi hmin
    unfold find_next_char
    have hk : (l.drop idx)[i - idx]? = some (some ch) := by
      rw [List.getElem?_drop, show idx + (i - idx) = i by omega]
      exact hi
    have hkmin : ∀ j, j < i - idx → (l.drop idx)[j]? ≠ some (some ch) := by
      intro j hj
      rw [List.getElem?_drop]
      exact hmin (idx + j) (Nat.le_add_right idx j) (by omega)
    rw [find_next_char_go_found ch (l.drop idx) (i - idx) hk hkmin idx]
    omega

/-- Witness for C7: in `[some 1, some 46, some 2]` the first `.` (byte 46)
from position 0 is at index 1, and the nominated end is 2. -/
theorem split_nomination_characterization_witness :
    ([some 1, some 46, some 2] : Payload)[1]? = some (some 46) ∧
    find_next_char [some 1, some 46, some 2] 0 46 = 2 := by
  constructor
  · decide
  · have hmin : ∀ j, 0 ≤ j → j < 1 →
        ([some 1, some 46, some 2] : Payload)[j]? ≠ some (some 46) := by
      intro j _ hj
      have hj0 : j = 0 := by omega
      subst hj0
      decide
    exact (split_nomination_characterization [some 1, some 46, some 2] 0 46).2 1
      (by omega) (by decide) hmin

theorem find_gaps_go_of_le (verify : List Byte → Bool) (fni : Payload → Nat → Byte → Nat)
    (ch : Byte) (fuel : Nat) (p : Payload) (start : Nat) (h : p.length ≤ start) :
    find_gaps_go verify fni ch fuel p start = some p := by
  cases fuel with
  | zero => simp only [find_gaps_go]; rw [if_neg (by omega)]
  | succ f => simp only [find_gaps_go]; rw [if_neg (by omega)]

theorem find_gaps_go_step (verify : List Byte → Bool) (fni : Payload → Nat → Byte → Nat)
    (ch : Byte) (fuel : Nat) (p : Payload) (start : Nat) (h : start < p.length) :
    find_gaps_go verify fni ch (fuel + 1) p start =
      find_gaps_go verify fni ch fuel
        (if verify (materialize (p.take start ++ p.drop (min (fni p start ch) p.length)))
          then gapRange p start (min (fni p start ch) p.length) else p)
        (min (fni p start ch) p.length) := by
  have he : (if p.length < fni p start ch then p.length else fni p start ch) =
      min (fni p start ch) p.length := by
    rw [Nat.min_def]; split_ifs <;> omega
  simp only [find_gaps_go, if_pos h, he, materialize_append]

theorem increment_by_offset_progress (p : Payload) (s : Nat) (off : Byte)
    (_h : s < p.length) : s < increment_by_offset p s off := by
  unfold increment_by_offset; omega

theorem find_gaps_go_total (verify : List Byte → Bool) (fni : Payload → Nat → Byte → Nat)
    (ch : Byte) (hprog : ∀ (q : Payload) (s : Nat), s < q.length → s < fni q s ch) :
    ∀ (fuel : Nat) (p : Payload) (start : Nat), p.length ≤ start + fuel →
      ∃ q, find_gaps_go verify fni ch fuel p start = some q := by
  intro fuel
  induction fuel with
  | zero =>
    intro p start h
    exact ⟨p, find_gaps_go_of_le verify fni ch 0 p start (by omega)⟩
  | succ f ih =>
    intro p start h
    by_cases hs : start < p.length
    · rw [find_gaps_go_step verify fni ch f p start hs]
      apply ih
      have hp := hprog p start hs
      have hmin : start < min (fni p start ch) p.length := by
        rw [Nat.lt_min]; exact ⟨hp, hs⟩
      have hlen : (if verify (materialize (p.take start ++ p.drop (min (fni p start ch) p.length)))
          then gapRange p start (min (fni p start ch) p.length) else p).length = p.length := by
        split
        · exact gapRange_length p start _
        · rfl
      rw [hlen]
      omega
    · exact ⟨p, find_gaps_go_of_le verify fni ch (f + 1) p start (by omega)⟩

theorem find_gaps_go_mono (verify : List Byte → Bool) (fni : Payload → Nat → Byte → Nat)
    (ch : Byte) : ∀ (fuel : Nat) (p : Payload) (start : Nat) (q : Payload),
      find_gaps_go verify fni ch fuel p start = some q →
      (materialize q).length ≤ (materialize p).length := by
  intro fuel
  induction fuel with
  | zero =>
    intro p start q h
    simp only [find_gaps_go] at h
    split at h
    · exact absurd h (by simp)
    · injection h with h2
      subst h2
      exact Nat.le_refl _
  | succ f ih =>
    intro p start q h
    by_cases hs : start < p.length
    · rw [find_gaps_go_step verify fni ch f p start hs] at h
      refine Nat.le_trans (ih _ _ _ h) ?_
      split
      · exact materialize_gapRange_length_le p start _
      · exact Nat.le_refl _
    · rw [find_gaps_go_of_le verify fni ch (f + 1) p start (by omega)] at h
      injection h with h2
      subst h2
      exact Nat.le_refl _

theorem find_gaps_mono (verify : List Byte → Bool) (fni : Payload → Nat → Byte → Nat)
    (ch : Byte) (p q : Payload) (h : find_gaps verify fni ch p = some q) :
    (materialize q).length ≤ (materialize p).length := by
  unfold find_gaps at h
  obtain ⟨q', hq', rfl⟩ := Option.map_eq_some'.mp h
  rw [materialize_trim_payload]
  exact find_gaps_go_mono verify fni ch _ _ _ _ hq'

theorem find_gaps_total (verify : List Byte → Bool) (fni : Payload → Nat → Byte → Nat)
    (ch : Byte) (hprog : ∀ (q : Payload) (s : Nat), s < q.length → s < fni q s ch)
    (p : Payload) : ∃ q, find_gaps verify fni ch p = some q := by
  obtain ⟨q, hq⟩ := find_gaps_go_total verify fni ch hprog p.length p 0 (by omega)
  exact ⟨trim_payload q, by simp [find_gaps, hq]⟩

/-- Claim C10: whenever `start < |P|`, each nominator used by `find_gaps`
(stride and delimiter-split) nominates an end that strictly exceeds
`start`, so `start` strictly increases on every iteration and every
stride and split phase terminates (the loop reaches a `some` result
within the internal fuel). -/
theorem nominators_progress_and_termination (verify : List Byte → Bool) (p : Payload)
    (start : Nat) (off ch : Byte) :
    (start < p.length → start < increment_by_offset p start off) ∧
    (start < p.length → start < find_next_char p start ch) ∧
    (∃ q, find_gaps verify increment_by_offset off p = some q) ∧
    (∃ q, find_gaps verify find_next_char ch p = some q) :=
  ⟨fun h => increment_by_offset_progress p start off h,
   fun h => find_next_char_lt p start ch h,
   find_gaps_total verify increment_by_offset off
     (fun q s hs => increment_by_offset_progress q s off hs) p,
   find_gaps_total verify find_next_char ch
     (fun q s hs => find_next_char_lt q s ch hs) p⟩

/-- Witness for C10: on a two-slot payload with `start = 0`, the stride
nominator with offset 255 and the split nominator with byte 46 both
nominate past 0. -/
theorem nominators_progress_and_termination_witness :
    0 < ([some 65, some 66] : Payload).length ∧
    0 < increment_by_offset [some 65, some 66] 0 255 ∧
    0 < find_next_char [some 65, some 66] 0 46 := by
  refine ⟨by decide, ?_, ?_⟩
  · exact (nominators_progress_and_termination (fun _ => true)
      [some 65, some 66] 0 255 46).1 (by decide)
  · exact (nominators_progress_and_termination (fun _ => true)
      [some 65, some 66] 0 255 46).2.1 (by decide)

/-- Claim C6: stride nomination with parameter `off` nominates
`end = start + 1 + off`, clamped to `|P|` when it exceeds `|P|`; the loop
probes the materialization of `P` with slots `[start, end)` excluded, gaps
`[start, end)` exactly when the probe succeeds, advances `start` to `end`
regardless of the outcome, and terminates once `start` reaches `|P|`. -/
theorem stride_phase_characterization (verify : List Byte → Bool) (off : Byte)
    (p : Payload) (start fuel : Nat) :
    (p.length ≤ start → find_gaps_go verify increment_by_offset off fuel p start = some p) ∧
    (start < p.length →
      find_gaps_go verify increment_by_offset off (fuel + 1) p start =
        find_gaps_go verify increment_by_offset off fuel
          (if verify (materialize (p.take start ++ p.drop (min (start + 1 + off) p.length)))
            then gapRange p start (min (start + 1 + off) p.length) else p)
          (min (start + 1 + off) p.length)) ∧
    (start < p.length → start < min (start + 1 + off) p.length) ∧
    (p.length ≤ start + fuel →
      ∃ q, find_gaps_go verify increment_by_offset off fuel p start = some q) := by
  refine ⟨fun h => find_gaps_go_of_le verify increment_by_offset off fuel p start h,
    fun h => ?_, fun h => ?_,
    fun h => find_gaps_go_total verify increment_by_offset off
      (fun q s hs => increment_by_offset_progress q s off hs) fuel p start h⟩
  · have hstep := find_gaps_go_step verify increment_by_offset off fuel p start h
    simpa only [increment_by_offset] using hstep
  · rw [Nat.lt_min]
    exact ⟨by omega, h⟩

/-- Witness for C6: one stride(0) step on `[some 1, some 2]` from
`start = 0` gaps slot 0 under an always-true probe and advances to 1; the
loop then finishes with both slots gapped. -/
theorem stride_phase_characterization_witness :
    0 < ([some 1, some 2] : Payload).length ∧
    find_gaps_go (fun _ => true) increment_by_offset 0 5 [some 1, some 2] 0 =
      some [none, none] := by
  refine ⟨by decide, ?_⟩
  rw [(stride_phase_characterization (fun _ => true) 0 [some 1, some 2] 0 4).2.1 (by decide)]
  decide

theorem closure_inner_of_le (verify : List Byte → Bool) (ch : Byte) (e start : Nat)
    (p : Payload) (h : e ≤ start) : closure_inner verify ch e start p = p := by
  cases e with
  | zero => rfl
  | succ e' => simp only [closure_inner]; rw [if_neg (by omega)]

theorem closure_inner_hit (verify : List Byte → Bool) (ch : Byte) (e start : Nat)
    (p : Payload) (h1 : start < e) (h2 : p[e]? = some (some ch)) :
    closure_inner verify ch e start p =
      (if verify (materialize (p.take start) ++ materialize (p.drop e))
        then gapRange p start e else p) := by
  obtain ⟨e', rfl⟩ : ∃ e', e = e' + 1 := ⟨e - 1, by omega⟩
  simp only [closure_inner, if_pos h1, if_pos h2]
  exact closure_inner_of_le verify ch e' (e' + 1) _ (by omega)

theorem closure_inner_mono (verify : List Byte → Bool) (ch : Byte) :
    ∀ (e start : Nat) (p : Payload),
      (materialize (closure_inner verify ch e start p)).length ≤ (materialize p).length := by
  intro e
  induction e with
  | zero => intro start p; exact Nat.le_refl _
  | succ e' ih =>
    intro start p
    by_cases h1 : start < e' + 1
    · by_cases h2 : p[e' + 1]? = some (some ch)
      · simp only [closure_inner, if_pos h1, if_pos h2]
        refine Nat.le_trans (ih (e' + 1) _) ?_
        split
        · exact materialize_gapRange_length_le p start _
        · exact Nat.le_refl _
      · simp only [closure_inner, if_pos h1, if_neg h2]
        exact ih start p
    · simp only [closure_inner]
      rw [if_neg h1]

theorem closures_go_mono (verify : List Byte → Bool) (o c : Byte) :
    ∀ (fuel : Nat) (p : Payload) (index : Nat) (q : Payload),
      closures_go verify o c fuel p index = some q →
      (materialize q).length ≤ (materialize p).length := by
  intro fuel
  induction fuel with
  | zero =>
    intro p index q h
    simp only [closures_go] at h
    split at h
    · exact absurd h (by simp)
    · injection h with h2
      subst h2
      exact Nat.le_refl _
  | succ f ih =>
    intro p index q h
    simp only [closures_go] at h
    split at h
    · exact Nat.le_trans (ih _ _ _ h) (closure_inner_mono verify c _ _ p)
    · injection h with h2
      subst h2
      exact Nat.le_refl _

theorem find_gaps_in_closures_mono (verify : List Byte → Bool) (fuel : Nat) (o c : Byte)
    (p q : Payload) (h : find_gaps_in_closures verify fuel o c p = some q) :
    (materialize q).length ≤ (materialize p).length := by
  unfold find_gaps_in_closures at h
  obtain ⟨q', hq', rfl⟩ := Option.map_eq_some'.mp h
  rw [materialize_trim_payload]
  exact closures_go_mono verify o c fuel p 0 q' hq'

/-- Claim C1 (refuted — code bug): the bracket-pair nomination phase does
not advance the outer `index` past an opening byte whose range never gets
gapped, so it re-examines the same opening slot forever instead of
continuing with the next index.  On the payload `[some 40]` (a single
opening byte of the pair `(`/`)`) the phase fails to finish for every
amount of fuel, for every probe. -/
theorem brackets_phase_stuck_on_unmatched_opening (verify : List Byte → Bool) :
    ∀ fuel : Nat, find_gaps_in_closures verify fuel 40 41 [some 40] = none := by
  have hgo : ∀ fuel, closures_go verify 40 41 fuel [some 40] 0 = none := by
    intro fuel
    induction fuel with
    | zero => rfl
    | succ f ih =>
      have h1 : find_start_index [some 40] 0 40 = 0 := rfl
      have h2 : closure_inner verify 41 (([some 40] : Payload).length - 1) 0 [some 40] =
          [some 40] := rfl
      simp only [closures_go, h1, h2]
      rw [if_pos (by decide)]
      exact ih
  intro fuel
  simp [find_gaps_in_closures, hgo fuel]

/-- Claim C5: in the bracket-pair strategy, when the closing byte is found
at position `end`, the probed candidate is the materialization of `P`
excluding slots `[start, end)` while keeping the slot at `end` — the
closing byte heads the surviving tail — and on success exactly the slots
in `[start, end)` are gapped (the slot at `end` is retained). -/
theorem closure_probe_excludes_range_keeps_closing (verify : List Byte → Bool)
    (ch : Byte) (p : Payload) (start e : Nat)
    (h1 : start < e) (h2 : p[e]? = some (some ch)) :
    (closure_inner verify ch e start p =
       if verify (materialize (p.take start ++ p.drop e)) then gapRange p start e else p) ∧
    (materialize (p.drop e) = ch :: materialize (p.drop (e + 1))) ∧
    (∀ i, (gapRange p start e)[i]? =
       if start ≤ i ∧ i < e ∧ i < p.length then some none else p[i]?) ∧
    ((gapRange p start e)[e]? = some (some ch)) := by
  have he : e < p.length := by
    by_contra hcon
    rw [List.getElem?_eq_none (by omega)] at h2
    exact absurd h2 (by simp)
  refine ⟨?_, ?_, fun i => gapRange_getElem? p start e i, ?_⟩
  · rw [closure_inner_hit verify ch e start p h1 h2, materialize_append]
  · have hd : p.drop e = p[e] :: p.drop (e + 1) := List.drop_eq_getElem_cons he
    have hpe : p[e] = some ch := by
      have hge := List.getElem?_eq_getElem he
      rw [hge] at h2
      injection h2
    rw [hd, hpe, materialize_cons_some]
  · rw [gapRange_getElem? p start e e, if_neg (by omega)]
    exact h2

/-- Witness for C5: on `[some 40, some 65, some 41, some 66]` with
`start = 0` and the closing byte 41 at `end = 2`, the inner loop gaps
exactly slots 0 and 1 under an always-true probe and keeps the slot at 2. -/
theorem closure_probe_excludes_range_keeps_closing_witness :
    (0 : Nat) < 2 ∧
    ([some 40, some 65, some 41, some 66] : Payload)[2]? = some (some 41) ∧
    (gapRange [some 40, some 65, some 41, some 66] 0 2)[2]? = some (some 41) ∧
    closure_inner (fun _ => true) 41 2 0 [some 40, some 65, some 41, some 66] =
      gapRange [some 40, some 65, some 41, some 66] 0 2 := by
  refine ⟨by decide, by decide, ?_, ?_⟩
  · exact (closure_probe_excludes_range_keeps_closing (fun _ => true) 41
      [some 40, some 65, some 41, some 66] 0 2 (by decide) (by decide)).2.2.2
  · have h := (closure_probe_excludes_range_keeps_closing (fun _ => true) 41
      [some 40, some 65, some 41, some 66] 0 2 (by decide) (by decide)).1
    rw [h]
    decide

theorem run_phase_mono (verify : List Byte → Bool) (fuel : Nat) (p : Payload)
    (d : PhaseDesc) (q : Payload) (h : run_phase verify fuel p d = some q) :
    (materialize q).length ≤ (materialize p).length := by
  cases d with
  | stride off => exact find_gaps_mono verify increment_by_offset off p q h
  | split ch => exact find_gaps_mono verify find_next_char ch p q h
  | brackets o c => exact find_gaps_in_closures_mono verify fuel o c p q h

theorem foldlM_run_phase_mono (verify : List Byte → Bool) (fuel : Nat) :
    ∀ (ds : List PhaseDesc) (p q : Payload),
      List.foldlM (run_phase verify fuel) p ds = some q →
      (materialize q).length ≤ (materialize p).length := by
  intro ds
  induction ds with
  | nil =>
    intro p q h
    simp only [List.foldlM_nil] at h
    injection h with h2
    subst h2
    exact Nat.le_refl _
  | cons d ds ih =>
    intro p q h
    rw [List.foldlM_cons] at h
    obtain ⟨p', hp', hrest⟩ := Option.bind_eq_some.mp h
    exact Nat.le_trans (ih p' q hrest) (run_phase_mono verify fuel p d p' hp')

theorem phases_mono (verify : List Byte → Bool) (fuel : Nat) (p q : Payload)
    (h : phases verify fuel p = some q) :
    (materialize q).length ≤ (materialize p).length :=
  foldlM_run_phase_mono verify fuel schedule p q h

theorem perform_ungeneralized_with_metadata (how_many_set : List Byte → List Nat → Nat)
    (fuel : Nat) (entry : Entry) (corpus_idx : Nat) (nov : List Nat)
    (hg : entry.generalized = none) (hm : entry.metadata = some nov) :
    perform how_many_set fuel entry corpus_idx =
      (if verify_input how_many_set nov entry.bytes then
        match phases (verify_input how_many_set nov) fuel (entry.bytes.map some) with
        | none => none
        | some p =>
          if p.length ≤ MAX_GENERALIZED_LEN then
            some (Except.ok (), generalized_from_options entry p)
          else some (Except.ok (), entry)
      else some (Except.ok (), entry)) := by
  unfold perform
  rw [hg, hm]
  rfl

/-- Claim C2 (amended): for every invocation of `perform` on a corpus
entry whose input is not already generalized and whose testcase lacks the
novelty metadata, `perform` fails with a key-not-found error whose
message names the corpus index. -/
theorem missing_metadata_fails_for_ungeneralized_entry
    (how_many_set : List Byte → List Nat → Nat) (fuel : Nat) (entry : Entry)
    (corpus_idx : Nat) (hg : entry.generalized = none) (hm : entry.metadata = none) :
    perform how_many_set fuel entry corpus_idx =
      some (Except.error (Err.keyNotFound (metadata_not_found_msg corpus_idx)), entry) ∧
    ∃ pre post, metadata_not_found_msg corpus_idx = pre ++ toString corpus_idx ++ post := by
  constructor
  · unfold perform
    rw [hg, hm]
    rfl
  · exact ⟨"MapNoveltiesMetadata needed for GeneralizationStage not found in testcase #",
      " (check the arguments of MapFeedback::new(...))", rfl⟩

/-- Witness for C2 (amended) at a concrete ungeneralized entry without
metadata. -/
theorem missing_metadata_fails_for_ungeneralized_entry_witness :
    (Entry.mk [65] none none).generalized = none ∧
    perform (fun _ _ => 0) 2 (Entry.mk [65] none none) 5 =
      some (Except.error (Err.keyNotFound (metadata_not_found_msg 5)), Entry.mk [65] none none) :=
  ⟨rfl, (missing_metadata_fails_for_ungeneralized_entry (fun _ _ => 0) 2
    (Entry.mk [65] none none) 5 rfl rfl).1⟩

/-- Counterexample for C2 as stated: an invocation of `perform` on an
entry whose testcase lacks the novelty metadata but whose input already
carries a generalized form returns success instead of failing — the
idempotency early-return precedes the metadata lookup. -/
theorem missing_metadata_claim_counterexample :
    (Entry.mk [65] (some [some 65]) none).metadata = none ∧
    perform (fun _ _ => 0) 0 (Entry.mk [65] (some [some 65]) none) 3 =
      some (Except.ok (), Entry.mk [65] (some [some 65]) none) :=
  ⟨rfl, rfl⟩

/-- Claim C8: if the single baseline verification probe on the original
input fails (the reported novelty count differs from the novelty set
size), `perform` returns success without mutating the corpus entry —
uniformly in the fuel, since the deletion phases are never reached. -/
theorem unstable_baseline_no_mutation (how_many_set : List Byte → List Nat → Nat)
    (fuel : Nat) (entry : Entry) (corpus_idx : Nat) (novelties : List Nat)
    (hg : entry.generalized = none) (hm : entry.metadata = some novelties)
    (hv : verify_input how_many_set novelties entry.bytes = false) :
    perform how_many_set fuel entry corpus_idx = some (Except.ok (), entry) := by
  unfold perform
  rw [hg, hm]
  simp [hv]

/-- Witness for C8: a probe oracle that always reports zero set indices
rejects the baseline, and `perform` leaves the entry untouched. -/
theorem unstable_baseline_no_mutation_witness :
    verify_input (fun _ _ => 0) [0] [65] = false ∧
    perform (fun _ _ => 0) 5 (Entry.mk [65] none (some [0])) 2 =
      some (Except.ok (), Entry.mk [65] none (some [0])) :=
  ⟨by decide, unstable_baseline_no_mutation (fun _ _ => 0) 5
    (Entry.mk [65] none (some [0])) 2 [0] rfl rfl (by decide)⟩

/-- Claim C9: after all phases, the generalized form is installed and
persisted to the corpus entry exactly when the final payload length is at
most `MAX_GENERALIZED_LEN = 8192`; when it exceeds that bound, the entry
is left unmodified and the payload is discarded, while `perform` still
returns success. -/
theorem size_ceiling_gates_persistence (how_many_set : List Byte → List Nat → Nat)
    (fuel : Nat) (entry : Entry) (corpus_idx : Nat) (novelties : List Nat) (p : Payload)
    (hg : entry.generalized = none) (hm : entry.metadata = some novelties)
    (hv : verify_input how_many_set novelties entry.bytes = true)
    (hp : phases (verify_input how_many_set novelties) fuel (entry.bytes.map some) = some p) :
    (p.length ≤ MAX_GENERALIZED_LEN →
       perform how_many_set fuel entry corpus_idx =
         some (Except.ok (), generalized_from_options entry p)) ∧
    (MAX_GENERALIZED_LEN < p.length →
       perform how_many_set fuel entry corpus_idx = some (Except.ok (), entry)) := by
  constructor
  · intro hle
    unfold perform
    rw [hg, hm]
    simp [hv, hp, hle]
  · intro hgt
    unfold perform
    rw [hg, hm]
    simp [hv, hp]
    intro hcon
    omega

/-- Witness for C9: the full pipeline on the entry with bytes `[65]` and a
probe requiring byte 65 keeps the single slot; its length 1 fits the
ceiling, so the generalized form `[some 65]` is installed. -/
theorem size_ceiling_gates_persistence_witness :
    phases (verify_input (fun c _ => if c.contains 65 then 1 else 0) [0]) 5 [some 65] =
      some [some 65] ∧
    perform (fun c _ => if c.contains 65 then 1 else 0) 5 (Entry.mk [65] none (some [0])) 0 =
      some (Except.ok (),
        generalized_from_options (Entry.mk [65] none (some [0])) [some 65]) := by
  refine ⟨rfl, ?_⟩
  exact (size_ceiling_gates_persistence (fun c _ => if c.contains 65 then 1 else 0) 5
    (Entry.mk [65] none (some [0])) 0 [0] [some 65] rfl rfl (by decide) rfl).1 (by decide)

/-- Claim C4: the materialized byte string never grows across accepted
operations — gap-marking a range and trimming do not lengthen the
materialization, the whole phase pipeline does not lengthen it, and the
generalized form installed by `perform` materializes to at most the
original input length. -/
theorem materialization_never_grows :
    (∀ (p : Payload) (s e : Nat),
       (materialize (gapRange p s e)).length ≤ (materialize p).length) ∧
    (∀ p : Payload, materialize (trim_payload p) = materialize p) ∧
    (∀ (verify : List Byte → Bool) (fuel : Nat) (p q : Payload),
       phases verify fuel p = some q →
       (materialize q).length ≤ (materialize p).length) ∧
    (∀ (how_many_set : List Byte → List Nat → Nat) (fuel : Nat) (entry : Entry)
       (corpus_idx : Nat) (entry' : Entry) (g : Payload),
       entry.generalized = none →
       perform how_many_set fuel entry corpus_idx = some (Except.ok (), entry') →
       entry'.generalized = some g →
       (materialize g).length ≤ entry.bytes.length) := by
  refine ⟨materialize_gapRange_length_le, materialize_trim_payload,
    phases_mono, ?_⟩
  intro hms fuel entry idx entry' g hg hperf hg'
  cases hm : entry.metadata with
  | none =>
    unfold perform at hperf
    rw [hg, hm] at hperf
    simp at hperf
  | some nov =>
    rw [perform_ungeneralized_with_metadata hms fuel entry idx nov hg hm] at hperf
    by_cases hv : verify_input hms nov entry.bytes = true
    · rw [if_pos hv] at hperf
      cases hp : phases (verify_input hms nov) fuel (entry.bytes.map some) with
      | none =>
        rw [hp] at hperf
        simp at hperf
      | some p =>
        simp only [hp] at hperf
        by_cases hlen : p.length ≤ MAX_GENERALIZED_LEN
        · rw [if_pos hlen] at hperf
          injection hperf with h2
          have h3 : generalized_from_options entry p = entry' := congrArg Prod.snd h2
          subst h3
          have h4 : some p = some g := by
            simpa [generalized_from_options] using hg'
          injection h4 with h5
          subst h5
          have h6 := phases_mono (verify_input hms nov) fuel _ _ hp
          rwa [materialize_map_some] at h6
        · rw [if_neg hlen] at hperf
          injection hperf with h2
          have h3 : entry = entry' := congrArg Prod.snd h2
          subst h3
          rw [hg] at hg'
          exact absurd hg' (by simp)
    · rw [if_neg hv] at hperf
      injection hperf with h2
      have h3 : entry = entry' := congrArg Prod.snd h2
      subst h3
      rw [hg] at hg'
      exact absurd hg' (by simp)

/-- Witness for C4: the concrete run on bytes `[65]` installs `[some 65]`,
whose materialization has length 1 ≤ 1. -/
theorem materialization_never_grows_witness :
    perform (fun c _ => if c.contains 65 then 1 else 0) 5 (Entry.mk [65] none (some [0])) 0 =
      some (Except.ok (),
        generalized_from_options (Entry.mk [65] none (some [0])) [some 65]) ∧
    (materialize [some 65]).length ≤ ([65] : List Byte).length := by
  refine ⟨rfl, ?_⟩
  exact materialization_never_grows.2.2.2 (fun c _ => if c.contains 65 then 1 else 0) 5
    (Entry.mk [65] none (some [0])) 0
    (generalized_from_options (Entry.mk [65] none (some [0])) [some 65]) [some 65]
    rfl rfl rfl

end Generalization
